import Mathlib

/-!
Shallow embedding of the convbump repository (src/convbump) in Lean 4.

Strings are modelled as lists of characters (`Str`).  The two regular
expressions of the source (SUBJECT_REGEX in conventional.py and TAG_REGEX in
git.py) are modelled as deterministic backtracking parsers that follow the
Python `re` engine's leftmost, lazy/greedy search order; the models were
checked against CPython's `re` on an extensive battery of inputs.  The dollar
anchor is modelled as strict end-of-input: inside the program every string
reaching the regexes contains no newline (subjects produced by parse_message
and body lines produced by splitting on newline), where the two semantics
agree.  Character classes are modelled at their ASCII core.
-/

abbrev Str := List Char

/-- Whitespace characters of Python's regex class and of str.strip
(ASCII core). -/
def pyWs (c : Char) : Bool :=
  c = ' ' || c = '\t' || c = '\n' || c = '\x0d' || c = '\x0b' || c = '\x0c'

/-- Python str.strip(): drop whitespace from both ends. -/
def pyStrip (s : Str) : Str :=
  ((s.dropWhile pyWs).reverse.dropWhile pyWs).reverse

/-- Splitting on a single character, Python str.split(ch) semantics
(keeps empty fields). -/
def splitOnChar (ch : Char) : Str → List Str
  | [] => [[]]
  | c :: rest =>
    match splitOnChar ch rest with
    | [] => [[]]
    | s :: ss => if c = ch then [] :: s :: ss else (c :: s) :: ss

/-- All decompositions cs = before ++ ch :: after, ordered with the longest
`before` first.  This is the order in which a greedy `.*` followed by the
literal ch explores its match boundary. -/
def splitsOn (ch : Char) : Str → List (Str × Str)
  | [] => []
  | c :: rest =>
    if c = ch
    then ((splitsOn ch rest).map (fun p => (c :: p.1, p.2))) ++ [([], rest)]
    else (splitsOn ch rest).map (fun p => (c :: p.1, p.2))

/-- Result of a successful SUBJECT_REGEX match: the four named groups
type, scope, breaking, subject (conventional.py lines 36-52). -/
structure SubjectMatch where
  type : Str
  scope : Option Str
  breaking : Bool
  subject : Str
deriving DecidableEq

/-- The tail of SUBJECT_REGEX: literal ':' then an optional single whitespace
then the subject group taking the rest of the line. -/
def matchColon : Str → Option Str
  | ':' :: rest =>
    match rest with
    | c :: rest2 => if pyWs c then some rest2 else some rest
    | [] => some []
  | _ => none

/-- Optional '!' (breaking mark) followed by the colon tail. -/
def matchBang (cs : Str) : Option (Bool × Str) :=
  match cs with
  | '!' :: rest => (matchColon rest).map (fun subj => (true, subj))
  | _ => (matchColon cs).map (fun subj => (false, subj))

/-- Optional parenthesised scope group followed by bang and colon.  The
group is attempted first (preferred by the regex engine) with its greedy
inner `.*` trying the rightmost closing parenthesis first; on failure the
group is skipped. -/
def matchScopeThen (cs : Str) : Option (Option Str × Bool × Str) :=
  match cs with
  | '(' :: rest =>
    match (splitsOn ')' rest).findSome?
        (fun p => (matchBang p.2).map (fun bs => (some p.1, bs.1, bs.2))) with
    | some r => some r
    | none => (matchBang cs).map (fun bs => ((none : Option Str), bs.1, bs.2))
  | _ => (matchBang cs).map (fun bs => ((none : Option Str), bs.1, bs.2))

/-- The character class [a-zA-Z] of the type group. -/
def isAsciiLetter (c : Char) : Bool :=
  ('a' ≤ c && c ≤ 'z') || ('A' ≤ c && c ≤ 'Z')

/-- Lazy type group: the shortest all-letter field whose continuation
matches wins; the accumulated type is kept reversed. -/
def tryTypeAux : Str → Str → Option SubjectMatch
  | tyRev, rest =>
    match matchScopeThen rest with
    | some (sc, b, subj) => some ⟨tyRev.reverse, sc, b, subj⟩
    | none =>
      match rest with
      | c :: r => if isAsciiLetter c then tryTypeAux (c :: tyRev) r else none
      | [] => none

/-- SUBJECT_REGEX.match (conventional.py lines 36-52). -/
def subjectRegexMatch (cs : Str) : Option SubjectMatch :=
  tryTypeAux [] cs

/-- parse_subject (conventional.py lines 68-80).  A failed match and an
empty subject group both raise ValueError in the source, modelled as none. -/
def parse_subject (cs : Str) : Option SubjectMatch :=
  match subjectRegexMatch cs with
  | some m => if m.subject = [] then none else some m
  | none => none

/-- VersionImpact (conventional.py lines 14-20). -/
inductive VersionImpact where
  | MAJOR
  | MINOR
  | PATCH
  | NONE
deriving DecidableEq

/-- Numeric value of each VersionImpact member. -/
def VersionImpact.value : VersionImpact → Nat
  | .MAJOR => 3
  | .MINOR => 2
  | .PATCH => 1
  | .NONE => 0

/-- Python str.lower() at its ASCII core. -/
def pyLower (s : Str) : Str :=
  s.map Char.toLower

/-- get_commit_version_impact (conventional.py lines 23-33). -/
def get_commit_version_impact (commit_type : Str) (is_breaking : Bool) : VersionImpact :=
  if is_breaking then .MAJOR
  else if pyLower commit_type = "feat".data then .MINOR
  else .PATCH

/-- CommitType (conventional.py lines 55-65). -/
inductive CommitType where
  | FEAT
  | FIX
  | CHORE
  | DOCS
  | TEST
  | REFACTOR
  | STYLE
  | BUILD
  | CI
  | OTHER
deriving DecidableEq

/-- The string value of each CommitType member. -/
def CommitType.value : CommitType → Str
  | .FEAT => "feat".data
  | .FIX => "fix".data
  | .CHORE => "chore".data
  | .DOCS => "docs".data
  | .TEST => "test".data
  | .REFACTOR => "refactor".data
  | .STYLE => "style".data
  | .BUILD => "build".data
  | .CI => "ci".data
  | .OTHER => "other".data

/-- Python str.upper() at its ASCII core. -/
def pyUpper (s : Str) : Str :=
  s.map Char.toUpper

/-- CommitType[name.upper()] with the KeyError fallback to OTHER used in
from_git_commit (conventional.py lines 161-164). -/
def commitTypeByName (raw : Str) : CommitType :=
  if pyUpper raw = "FEAT".data then .FEAT
  else if pyUpper raw = "FIX".data then .FIX
  else if pyUpper raw = "CHORE".data then .CHORE
  else if pyUpper raw = "DOCS".data then .DOCS
  else if pyUpper raw = "TEST".data then .TEST
  else if pyUpper raw = "REFACTOR".data then .REFACTOR
  else if pyUpper raw = "STYLE".data then .STYLE
  else if pyUpper raw = "BUILD".data then .BUILD
  else if pyUpper raw = "CI".data then .CI
  else .OTHER

/-- Stripping of a leading bullet marker, re.sub of the anchored class
[*-•] followed by whitespace (conventional.py line 104). -/
def stripBullet (l : Str) : Str :=
  match l with
  | c :: rest => if c = '*' || c = '-' || c = '•' then rest.dropWhile pyWs else l
  | [] => l

/-- Body of the line loop of find_conventional_commit_in_body
(conventional.py lines 97-114): strip the line, skip it when blank, strip a
bullet marker, parse it, and score a successful parse by its version
impact. -/
def lineCandidate (line : Str) : Option (Nat × SubjectMatch) :=
  let l := pyStrip line
  if l = [] then none
  else
    match parse_subject (stripBullet l) with
    | some m => some ((get_commit_version_impact m.type m.breaking).value, m)
    | none => none

/-- The found_commits list of find_conventional_commit_in_body, in body-line
order. -/
def bodyCandidates (body : Str) : List (Nat × SubjectMatch) :=
  (splitOnChar '\n' body).filterMap lineCandidate

/-- Stable insertion (descending by key): a later element is placed after
every earlier element with the same or a larger key. -/
def insertDescBy {α : Type} (key : α → Nat) (x : α) : List α → List α
  | [] => [x]
  | y :: ys => if key y ≤ key x then x :: y :: ys else y :: insertDescBy key x ys

/-- Stable descending sort; extensionally the list.sort(key, reverse=True)
call of the source, whose sort is stable. -/
def sortDescBy {α : Type} (key : α → Nat) (l : List α) : List α :=
  l.foldr (insertDescBy key) []

/-- find_conventional_commit_in_body (conventional.py lines 83-121). -/
def find_conventional_commit_in_body (body : Str) : Option SubjectMatch :=
  if body = [] then none
  else
    match sortDescBy (fun p => p.1) (bodyCandidates body) with
    | [] => none
    | x :: _ => some x.2

/-- Commit (git.py lines 34-50); the paths set is modelled as a list, only
membership in it is ever used. -/
structure Commit where
  hash : Str
  subject : Str
  body : Option Str
  paths : List Str
deriving DecidableEq

/-- Segments of a relative path in the sense of pathlib: empty fields and
single-dot fields of the slash-separated form are dropped. -/
def splitPath (s : Str) : List Str :=
  (splitOnChar '/' s).filter (fun seg => !(seg = []) && !(seg = ['.']))

/-- Commit.affects_dir (git.py lines 42-50): true when some changed path has
the directory as a path-segment prefix (pathlib relative_to succeeds; its
result, even the dot path, is always truthy). -/
def Commit.affects_dir (c : Commit) (dir : Str) : Bool :=
  c.paths.any (fun p => (splitPath dir).isPrefixOf (splitPath p))

/-- First occurrence of sep inside a string: the split before and after it.
None when sep does not occur. -/
def findSub (sep : Str) : Str → Option (Str × Str)
  | [] => none
  | c :: rest =>
    if sep.isPrefixOf (c :: rest) then some ([], (c :: rest).drop sep.length)
    else
      match findSub sep rest with
      | some (pre, post) => some (c :: pre, post)
      | none => none

/-- Fuelled worker for Python str.split(sep) with a non-empty separator;
the fuel (the string length) is an upper bound on the number of fields. -/
def splitSubAux (sep : Str) : Nat → Str → List Str
  | 0, cs => [cs]
  | Nat.succ fuel, cs =>
    match findSub sep cs with
    | none => [cs]
    | some (pre, post) => pre :: splitSubAux sep fuel post

/-- Python str.split(sep): split on every non-overlapping occurrence of sep,
left to right, keeping empty fields. -/
def splitSub (sep : Str) (cs : Str) : List Str :=
  splitSubAux sep cs.length cs

/-- Python substring containment (the `in` operator on strings), for a
non-empty needle. -/
def containsSub (needle hay : Str) : Bool :=
  (findSub needle hay).isSome

/-- Python sep.join(parts). -/
def joinSub (sep : Str) : List Str → Str
  | [] => []
  | [x] => x
  | x :: y :: rest => x ++ sep ++ joinSub sep (y :: rest)

/-- parse_message (git.py lines 53-65). -/
def parse_message (message : Str) : Str × Str :=
  match splitSub "\n\n".data (pyStrip message) with
  | [] => ([], message)
  | maybe_subject :: rest =>
    if maybe_subject.contains '\n' then ([], message)
    else (maybe_subject, joinSub "\n\n".data rest)

/-- ConventionalCommit (conventional.py lines 124-134). -/
structure ConventionalCommit where
  commit_type : CommitType
  scope : Option Str
  is_breaking : Bool
  subject : Str
  body : Option Str
  hash : Str
  raw_subject : Str
  is_conventional : Bool
deriving DecidableEq

/-- The body recovery call of from_git_commit (conventional.py lines
146-148): the body search runs only when the body is present and non-empty
(Python truthiness of the optional string). -/
def bodySearch (body : Option Str) : Option SubjectMatch :=
  match body with
  | some b => if b = [] then none else find_conventional_commit_in_body b
  | none => none

/-- The BREAKING CHANGE override test of from_git_commit (conventional.py
lines 166-168): substring containment in a present body. -/
def breakingInBody (body : Option Str) : Bool :=
  match body with
  | some b => containsSub "BREAKING CHANGE:".data b
  | none => false

/-- ConventionalCommit.from_git_commit (conventional.py lines 136-179).
Total: both ValueError sites of the source are caught inside the function
itself, so it is a plain function of the commit. -/
def ConventionalCommit.from_git_commit (git_commit : Commit) : ConventionalCommit :=
  let parsed : Str × Option Str × Bool × Str × Bool :=
    match parse_subject git_commit.subject with
    | some m => (m.type, m.scope, m.breaking, m.subject, true)
    | none =>
      match bodySearch git_commit.body with
      | some m => (m.type, m.scope, m.breaking, m.subject, true)
      | none => ("other".data, none, false, git_commit.subject, false)
  { commit_type := commitTypeByName parsed.1
    scope := parsed.2.1
    is_breaking := parsed.2.2.1 || breakingInBody git_commit.body
    subject := parsed.2.2.2.1
    body := match git_commit.body with
            | some b => if b = [] then none else some b
            | none => none
    hash := git_commit.hash.take 7
    raw_subject := git_commit.subject
    is_conventional := parsed.2.2.2.2 }

/-- Version (semver VersionInfo restricted to the numeric triple, the only
part the program constructs and compares). -/
structure Version where
  major : Nat
  minor : Nat
  patch : Nat
deriving DecidableEq

/-- semver bump_major. -/
def Version.bump_major (v : Version) : Version := ⟨v.major + 1, 0, 0⟩

/-- semver bump_minor. -/
def Version.bump_minor (v : Version) : Version := ⟨v.major, v.minor + 1, 0⟩

/-- semver bump_patch. -/
def Version.bump_patch (v : Version) : Version := ⟨v.major, v.minor, v.patch + 1⟩

/-- DEFAULT_FIRST_VERSION (version.py line 11). -/
def DEFAULT_FIRST_VERSION : Version := ⟨0, 1, 0⟩

/-- get_next_version (version.py lines 14-39). -/
def get_next_version (current_version : Version)
    (conventional_commits : List ConventionalCommit) : Version :=
  if conventional_commits = [] then current_version
  else
    let max_impact := conventional_commits.foldl
      (fun acc c =>
        let impact := get_commit_version_impact c.commit_type.value c.is_breaking
        if acc.value < impact.value then impact else acc)
      VersionImpact.NONE
    match max_impact with
    | .MAJOR => current_version.bump_major
    | .MINOR => current_version.bump_minor
    | .PATCH => current_version.bump_patch
    | .NONE => current_version

/-- RawCommit: a commit object as handed to Git.list_commits by the
repository reader (dulwich), with its id, raw message, parent ids, tree id
and commit timestamp. -/
structure RawCommit where
  id : Str
  message : Str
  parents : List Str
  tree : Nat
  time : Nat
deriving DecidableEq

/-- Repository reader capabilities used by Git.get_commit_paths: object
lookup by id and the tree diff between two trees, yielding (old path,
new path) pairs.  Lookup is total here; a missing object would be an
external GraphReadFailure, outside the embedded logic. -/
structure Reader where
  lookup : Str → RawCommit
  tree_changes : Nat → Nat → List (Option Str × Option Str)

/-- Git.get_commit_paths (git.py lines 73-84): union over all parents of
the old and new paths of the tree diff against that parent.  The Python set
is modelled as a list; only membership is ever consumed.  A commit with no
parents yields the empty collection, the parent loop never runs. -/
def get_commit_paths (rd : Reader) (commit : RawCommit) : List Str :=
  (commit.parents.map rd.lookup).foldl
    (fun paths parent_commit =>
      (rd.tree_changes parent_commit.tree commit.tree).foldl
        (fun acc pr =>
          let acc2 := match pr.1 with | some p => acc ++ [p] | none => acc
          match pr.2 with | some p => acc2 ++ [p] | none => acc2)
        paths)
    []

/-- The per-entry body of the walker loop of Git.list_commits (git.py lines
117-125): decode the message, split it into subject and body, collect the
changed paths, and build a Commit with the empty body collapsed to none. -/
def commitOfRaw (rd : Reader) (commit : RawCommit) : Commit :=
  let sb := parse_message commit.message
  ⟨commit.id, sb.1, (if sb.2 = [] then none else some sb.2), get_commit_paths rd commit⟩

/-- The walker loop of Git.list_commits (git.py lines 116-132) over the
reversed walker output: emit the entry when the add flag is set, raise the
flag after passing the from sha, stop after the to sha. -/
def list_commits_walk (rd : Reader) (from_sha to_sha : Option Str) :
    List RawCommit → Bool → List Commit
  | [], _ => []
  | c :: rest, add =>
    let emitted := if add then [commitOfRaw rd c] else []
    let add2 := if from_sha = some c.id then true else add
    if to_sha = some c.id then emitted
    else emitted ++ list_commits_walk rd from_sha to_sha rest add2

/-- Git.list_commits (git.py lines 86-132).  The walk argument is the
output of repo.get_walker(reverse=True); the tag arguments are already
peeled to commit shas (repo.get_peeled).  The add flag starts raised
exactly when from_sha is absent. -/
def list_commits (rd : Reader) (walk : List RawCommit)
    (from_sha to_sha : Option Str) : List Commit :=
  list_commits_walk rd from_sha to_sha walk from_sha.isNone

/-- Numeric value of a digit string, the int() coercion applied by semver
VersionInfo to the captured groups (tolerates leading zeros). -/
def digitsToNat (ds : Str) : Nat :=
  ds.foldl (fun n c => n * 10 + (c.toNat - '0'.toNat)) 0

/-- A required digit group (greedy; the context after it is never a digit):
its numeric value and the remaining input, none when no digit is
present. -/
def parseDigits (cs : Str) : Option (Nat × Str) :=
  if cs.takeWhile Char.isDigit = [] then none
  else some (digitsToNat (cs.takeWhile Char.isDigit), cs.dropWhile Char.isDigit)

/-- Literal single-character expectation. -/
def expectChar (c : Char) (cs : Str) : Option Str :=
  match cs with
  | x :: rest => if x = c then some rest else none
  | [] => none

/-- The version part of TAG_REGEX (git.py lines 20-27): literal 'v', a
required major digit group, then an optional .minor group with an optional
nested .patch group, anchored at the end.  Greedy digit groups followed by
a dot or the anchor need no backtracking.  Missing minor and patch default
to 0 as in Git.retrieve_last_version lines 156-160. -/
def parseVersionPart (cs : Str) : Option (Nat × Nat × Nat) :=
  match expectChar 'v' cs with
  | none => none
  | some rest =>
    match parseDigits rest with
    | none => none
    | some (maj, r1) =>
      if r1 = [] then some (maj, 0, 0)
      else
        match expectChar '.' r1 with
        | none => none
        | some rest2 =>
          match parseDigits rest2 with
          | none => none
          | some (mi, r2) =>
            if r2 = [] then some (maj, mi, 0)
            else
              match expectChar '.' r2 with
              | none => none
              | some rest3 =>
                match parseDigits rest3 with
                | none => none
                | some (pa, r3) =>
                  if r3 = [] then some (maj, mi, pa) else none

/-- The part of TAG_REGEX after the literal refs/tags/ prefix: the optional
scope group (any text up to a slash, greedy, so the rightmost slash whose
remainder parses as a version wins) and then the version part. -/
def tagAfterRefsPre (rest : Str) : Option (Option Str × Nat × Nat × Nat) :=
  match (splitsOn '/' rest).findSome?
      (fun p => (parseVersionPart p.2).map (fun v => (some p.1, v))) with
  | some r => some r
  | none => (parseVersionPart rest).map (fun v => ((none : Option Str), v))

/-- TAG_REGEX.match (git.py lines 13-31). -/
def tagRegexMatch (s : Str) : Option (Option Str × Nat × Nat × Nat) :=
  if ("refs/tags/".data).isPrefixOf s then tagAfterRefsPre (s.drop 10) else none

/-- The tag_version_list accumulation of Git.retrieve_last_version (git.py
lines 142-162): keep the refs under refs/tags whose name matches TAG_REGEX
with exactly the requested scope, pairing the ref name with the parsed
version (missing minor and patch already defaulted to 0 by the parse). -/
def tag_version_list (refs : List Str) (scope : Option Str) :
    List (Str × Version) :=
  (refs.filter (fun r => ("refs/tags".data).isPrefixOf r)).filterMap
    (fun tag =>
      match tagRegexMatch tag with
      | some (matched_scope, maj, mi, pa) =>
        if matched_scope = scope then some (tag, ⟨maj, mi, pa⟩) else none
      | none => none)

/-- Numeric comparison of versions, the semver VersionInfo ordering on the
triple (major, minor, patch). -/
def verLe (a b : Version) : Bool :=
  decide (a.major < b.major ∨ (a.major = b.major ∧
    (a.minor < b.minor ∨ (a.minor = b.minor ∧ a.patch ≤ b.patch))))

/-- Stable insertion (ascending by version): an earlier element is placed
before every later element with the same or a larger version. -/
def insertAscVer (x : Str × Version) : List (Str × Version) → List (Str × Version)
  | [] => [x]
  | y :: ys => if verLe x.2 y.2 then x :: y :: ys else y :: insertAscVer x ys

/-- Stable ascending sort by version; extensionally the
sorted(tag_version_list, key=itemgetter(1)) call of the source. -/
def sortByVersion (l : List (Str × Version)) : List (Str × Version) :=
  l.foldr insertAscVer []

/-- Git.retrieve_last_version (git.py lines 134-169): the last element of
the version-sorted matching tags, none when no tag matches. -/
def retrieve_last_version (refs : List Str) (scope : Option Str) :
    Option (Str × Version) :=
  (sortByVersion (tag_version_list refs scope)).getLast?

/-- ignore_commit (convbump/__main__.py lines 18-25): some non-empty
pattern occurs in the joined raw subject and body. -/
def ignore_commit (patterns : List Str) (commit : ConventionalCommit) : Bool :=
  let message := commit.raw_subject ++ "\n\n".data ++
    (match commit.body with | some b => b | none => [])
  patterns.any (fun p => !(p = []) && containsSub p message)

/-- The commit-collection loop of _run (convbump/__main__.py lines 50-61).
The try/except ValueError around the loop body is dead code: neither
affects_dir nor from_git_commit nor ignore_commit can raise ValueError for
a commit with a decodable hash, so the strict flag never changes the
result; it is kept in the signature to mirror the source. -/
def runCollect (strict : Bool) (directory : Option Str)
    (ignored_patterns : List Str) (commits : List Commit) :
    List ConventionalCommit :=
  commits.filterMap (fun commit =>
    let dirOk := match directory with
      | none => true
      | some d => d = [] || commit.affects_dir d
    if dirOk then
      let conventional_commit := ConventionalCommit.from_git_commit commit
      if ignore_commit ignored_patterns conventional_commit then none
      else some conventional_commit
    else none)

/-- Spec-side impact rule (section 4.4 of the spec): MAJOR when breaking,
else MINOR for the feat type, else PATCH.  Stated on the closed enumeration,
to be compared with the string-based source function. -/
def specImpact (c : ConventionalCommit) : VersionImpact :=
  if c.is_breaking then .MAJOR
  else if c.commit_type = .FEAT then .MINOR
  else .PATCH

/-- Join of the version-impact lattice. -/
def impMax (a b : VersionImpact) : VersionImpact :=
  if a.value < b.value then b else a

/-- Spec-side aggregation: maximum impact over the commit set, NONE for the
empty set. -/
def specAggregate (cs : List ConventionalCommit) : VersionImpact :=
  cs.foldl (fun a c => impMax a (specImpact c)) .NONE

/-- Spec-side bump table: MAJOR increments major and zeroes minor and patch,
MINOR increments minor and zeroes patch, PATCH increments patch only, NONE
returns the version unchanged. -/
def specBump (v : Version) : VersionImpact → Version
  | .MAJOR => ⟨v.major + 1, 0, 0⟩
  | .MINOR => ⟨v.major, v.minor + 1, 0⟩
  | .PATCH => ⟨v.major, v.minor, v.patch + 1⟩
  | .NONE => v

/-- The string-based impact of a record agrees with the enumeration-based
spec rule. -/
theorem impact_value_eq (c : ConventionalCommit) :
    get_commit_version_impact c.commit_type.value c.is_breaking = specImpact c := by
  cases hb : c.is_breaking <;> cases ht : c.commit_type <;>
    simp [get_commit_version_impact, specImpact, CommitType.value, pyLower, hb, ht]

/-- C2.  For every current version and every commit set, get_next_version
bumps the version by the maximum impact over the set, where a commit's
impact is MAJOR when breaking, else MINOR for feat, else PATCH; MAJOR
increments major zeroing minor and patch, MINOR increments minor zeroing
patch, PATCH increments patch, and the empty set (aggregate NONE) returns
the version unchanged. -/
theorem c2_next_version_is_max_impact_bump (v : Version)
    (cs : List ConventionalCommit) :
    get_next_version v cs = specBump v (specAggregate cs) := by
  unfold get_next_version
  by_cases h : cs = []
  · subst h
    simp [specAggregate, specBump]
  · simp only [h, if_false]
    have hf : (cs.foldl
        (fun acc c =>
          let impact := get_commit_version_impact c.commit_type.value c.is_breaking
          if acc.value < impact.value then impact else acc)
        VersionImpact.NONE) = specAggregate cs := by
      unfold specAggregate
      congr 1
      funext a c
      simp only [impMax, impact_value_eq]
    rw [hf]
    cases specAggregate cs <;>
      simp [specBump, Version.bump_major, Version.bump_minor, Version.bump_patch]

/-- C8.  Parsing is total and, when neither the subject nor any body line
matches the grammar, yields the other-typed fallback record carrying the
original subject verbatim with the conventional flag cleared. -/
theorem c8_unparseable_commit_becomes_other_record (c : Commit)
    (h1 : parse_subject c.subject = none)
    (h2 : bodySearch c.body = none) :
    (ConventionalCommit.from_git_commit c).commit_type = CommitType.OTHER ∧
    (ConventionalCommit.from_git_commit c).subject = c.subject ∧
    (ConventionalCommit.from_git_commit c).is_conventional = false := by
  unfold ConventionalCommit.from_git_commit
  rw [h1, h2]
  exact ⟨rfl, rfl, rfl⟩

/-- Witness for C8 at a concrete free-form commit. -/
theorem c8_witness :
    (ConventionalCommit.from_git_commit
        ⟨"abc1234def".data, "Update docs".data, none, []⟩).commit_type
      = CommitType.OTHER ∧
    (ConventionalCommit.from_git_commit
        ⟨"abc1234def".data, "Update docs".data, none, []⟩).subject
      = "Update docs".data ∧
    (ConventionalCommit.from_git_commit
        ⟨"abc1234def".data, "Update docs".data, none, []⟩).is_conventional
      = false :=
  c8_unparseable_commit_becomes_other_record
    ⟨"abc1234def".data, "Update docs".data, none, []⟩ (by decide) (by decide)

/-- The regex on a subject that is just the separator and a description:
empty type group, no scope, no breaking mark. -/
theorem subjectRegexMatch_colon_space (desc : Str) :
    subjectRegexMatch (':' :: ' ' :: desc) = some ⟨[], none, false, desc⟩ := rfl

/-- The regex on a subject that is the breaking mark, the separator and a
description: empty type group, breaking mark set. -/
theorem subjectRegexMatch_bang_colon_space (desc : Str) :
    subjectRegexMatch ('!' :: ':' :: ' ' :: desc) = some ⟨[], none, true, desc⟩ := rfl

/-- A subject consisting of just the separator and a non-empty description
matches with an empty type group. -/
theorem parse_subject_colon_space (desc : Str) (hne : desc ≠ []) :
    parse_subject (':' :: ' ' :: desc) = some ⟨[], none, false, desc⟩ := by
  unfold parse_subject
  rw [subjectRegexMatch_colon_space]
  simp [hne]

/-- A subject consisting of the breaking mark, the separator and a
non-empty description matches with an empty type group and the breaking
flag set. -/
theorem parse_subject_bang_colon_space (desc : Str) (hne : desc ≠ []) :
    parse_subject ('!' :: ':' :: ' ' :: desc) = some ⟨[], none, true, desc⟩ := by
  unfold parse_subject
  rw [subjectRegexMatch_bang_colon_space]
  simp [hne]

/-- C10.  The subject grammar accepts an empty type token: a subject of the
form ": desc" or "!: desc" with a non-empty description parses, the record
normalizes the empty type to OTHER with the conventional flag set, the
breaking mark carries over, and a breaking empty-type subject has MAJOR
impact.  The newline-freedom hypothesis marks the domain on which the
regex model and the engine agree; in the program no subject contains a
newline. -/
theorem c10_empty_type_subject_parses_other (hash desc : Str) (hne : desc ≠ [])
    (hnl : ¬ '\n' ∈ desc) :
    (ConventionalCommit.from_git_commit ⟨hash, ':' :: ' ' :: desc, none, []⟩).commit_type
        = CommitType.OTHER ∧
    (ConventionalCommit.from_git_commit ⟨hash, ':' :: ' ' :: desc, none, []⟩).is_conventional
        = true ∧
    (ConventionalCommit.from_git_commit ⟨hash, ':' :: ' ' :: desc, none, []⟩).is_breaking
        = false ∧
    (ConventionalCommit.from_git_commit ⟨hash, ':' :: ' ' :: desc, none, []⟩).subject
        = desc ∧
    (ConventionalCommit.from_git_commit ⟨hash, '!' :: ':' :: ' ' :: desc, none, []⟩).commit_type
        = CommitType.OTHER ∧
    (ConventionalCommit.from_git_commit ⟨hash, '!' :: ':' :: ' ' :: desc, none, []⟩).is_conventional
        = true ∧
    (ConventionalCommit.from_git_commit ⟨hash, '!' :: ':' :: ' ' :: desc, none, []⟩).is_breaking
        = true ∧
    (ConventionalCommit.from_git_commit ⟨hash, '!' :: ':' :: ' ' :: desc, none, []⟩).subject
        = desc ∧
    get_commit_version_impact
        (ConventionalCommit.from_git_commit
          ⟨hash, '!' :: ':' :: ' ' :: desc, none, []⟩).commit_type.value
        (ConventionalCommit.from_git_commit
          ⟨hash, '!' :: ':' :: ' ' :: desc, none, []⟩).is_breaking
        = VersionImpact.MAJOR := by
  unfold ConventionalCommit.from_git_commit
  rw [parse_subject_colon_space desc hne, parse_subject_bang_colon_space desc hne]
  simp [breakingInBody, get_commit_version_impact]
  all_goals decide

/-- Witness for C10 at the description "x". -/
theorem c10_witness :
    (ConventionalCommit.from_git_commit
        ⟨"d00d".data, ':' :: ' ' :: "x".data, none, []⟩).commit_type
      = CommitType.OTHER ∧
    get_commit_version_impact
        (ConventionalCommit.from_git_commit
          ⟨"d00d".data, '!' :: ':' :: ' ' :: "x".data, none, []⟩).commit_type.value
        (ConventionalCommit.from_git_commit
          ⟨"d00d".data, '!' :: ':' :: ' ' :: "x".data, none, []⟩).is_breaking
      = VersionImpact.MAJOR := by
  have h := c10_empty_type_subject_parses_other "d00d".data "x".data
    (by decide) (by decide)
  exact ⟨h.1, h.2.2.2.2.2.2.2.2⟩

/-- Insertion into a list never yields the empty list. -/
theorem insertDescBy_ne_nil {α : Type} (key : α → Nat) (a : α) (s : List α) :
    insertDescBy key a s ≠ [] := by
  cases s with
  | nil => simp [insertDescBy]
  | cons y ys =>
    simp only [insertDescBy]
    split <;> simp

/-- The head of the stable descending sort is an element of the list whose
key is maximal, and every element strictly before its position in the
original list has a strictly smaller key: ties go to the first
occurrence. -/
theorem sortDescBy_head_first_max {α : Type} (key : α → Nat) (l : List α) :
    ∀ x, (sortDescBy key l).head? = some x →
      ∃ k, l.get? k = some x ∧
        (∀ j q, j < k → l.get? j = some q → key q < key x) ∧
        (∀ y ∈ l, key y ≤ key x) := by
  induction l with
  | nil => intro x hx; simp [sortDescBy] at hx
  | cons a l ih =>
    intro x hx
    have hstep : sortDescBy key (a :: l) = insertDescBy key a (sortDescBy key l) := rfl
    rw [hstep] at hx
    cases hs : sortDescBy key l with
    | nil =>
      have hl : l = [] := by
        cases l with
        | nil => rfl
        | cons b l2 =>
          have hb : sortDescBy key (b :: l2) = insertDescBy key b (sortDescBy key l2) := rfl
          rw [hb] at hs
          exact absurd hs (insertDescBy_ne_nil key b _)
      rw [hs] at hx
      simp [insertDescBy] at hx
      subst hx
      subst hl
      refine ⟨0, rfl, ?_, ?_⟩
      · intro j q hj _
        exact absurd hj (Nat.not_lt_zero j)
      · intro y hy
        simp at hy
        subst hy
        exact Nat.le_refl _
    | cons y ys =>
      rw [hs] at hx
      have hIH := ih y (by rw [hs]; rfl)
      obtain ⟨k0, hget0, hstrict0, hbound0⟩ := hIH
      by_cases hc : key y ≤ key a
      · simp [insertDescBy, hc] at hx
        subst hx
        refine ⟨0, rfl, ?_, ?_⟩
        · intro j q hj _
          exact absurd hj (Nat.not_lt_zero j)
        · intro z hz
          rcases List.mem_cons.mp hz with hz | hz
          · subst hz; exact Nat.le_refl _
          · exact Nat.le_trans (hbound0 z hz) hc
      · simp [insertDescBy, hc] at hx
        subst hx
        have hay : key a < key y := Nat.lt_of_not_le hc
        refine ⟨k0 + 1, hget0, ?_, ?_⟩
        · intro j q hj hq
          cases j with
          | zero =>
            have haq : a = q := by simpa using hq
            subst haq
            exact hay
          | succ j2 =>
            exact hstrict0 j2 q (Nat.lt_of_succ_lt_succ hj) hq
        · intro z hz
          rcases List.mem_cons.mp hz with hz | hz
          · subst hz; exact Nat.le_of_lt hay
          · exact hbound0 z hz

/-- A candidate produced by the line loop is keyed by the version impact of
its own parsed type and breaking flag. -/
theorem lineCandidate_key (line : Str) (p : Nat × SubjectMatch)
    (hp : lineCandidate line = some p) :
    p.1 = (get_commit_version_impact p.2.type p.2.breaking).value := by
  by_cases hl : pyStrip line = []
  · simp [lineCandidate, hl] at hp
  · simp only [lineCandidate, hl, if_false] at hp
    cases hps : parse_subject (stripBullet (pyStrip line)) with
    | none => rw [hps] at hp; simp at hp
    | some m2 =>
      rw [hps] at hp
      simp at hp
      rw [← hp]

/-- Sorting yields the empty list only for the empty list. -/
theorem sortDescBy_eq_nil {α : Type} (key : α → Nat) (l : List α)
    (h : sortDescBy key l = []) : l = [] := by
  cases l with
  | nil => rfl
  | cons a l2 =>
    have hb : sortDescBy key (a :: l2) = insertDescBy key a (sortDescBy key l2) := rfl
    rw [hb] at h
    exact absurd h (insertDescBy_ne_nil key a _)

/-- C3.  When the body yields at least one candidate line, the body search
returns the candidate with the highest version impact, and among candidates
of equal impact the one from the earliest line; a commit whose subject does
not parse takes exactly this selected candidate as its record. -/
theorem c3_body_recovery_picks_highest_impact_earliest (body : Str)
    (h : bodyCandidates body ≠ []) :
    ∃ k imp m,
      (bodyCandidates body).get? k = some (imp, m) ∧
      find_conventional_commit_in_body body = some m ∧
      imp = (get_commit_version_impact m.type m.breaking).value ∧
      (∀ p ∈ bodyCandidates body, p.1 ≤ imp) ∧
      (∀ j q, j < k → (bodyCandidates body).get? j = some q → q.1 < imp) ∧
      (∀ (hash subject : Str) (paths : List Str), parse_subject subject = none →
        (ConventionalCommit.from_git_commit ⟨hash, subject, some body, paths⟩).subject
            = m.subject ∧
        (ConventionalCommit.from_git_commit ⟨hash, subject, some body, paths⟩).is_conventional
            = true) := by
  have hbody : body ≠ [] := by
    intro hb
    apply h
    rw [hb]
    rfl
  cases hsort : sortDescBy (fun p => p.1) (bodyCandidates body) with
  | nil => exact absurd (sortDescBy_eq_nil _ _ hsort) h
  | cons x xs =>
    have hfind : find_conventional_commit_in_body body = some x.2 := by
      unfold find_conventional_commit_in_body
      simp [hbody, hsort]
    have hhead : (sortDescBy (fun p => p.1) (bodyCandidates body)).head? = some x := by
      rw [hsort]
      rfl
    obtain ⟨k, hget, hstrict, hbound⟩ :=
      sortDescBy_head_first_max (fun p => p.1) (bodyCandidates body) x hhead
    have hmem : x ∈ bodyCandidates body := List.get?_mem hget
    obtain ⟨line, hline, hcand⟩ := List.mem_filterMap.mp hmem
    refine ⟨k, x.1, x.2, hget, hfind, lineCandidate_key line x hcand,
      hbound, hstrict, ?_⟩
    intro hash subject paths hps
    constructor <;>
      (unfold ConventionalCommit.from_git_commit
       rw [hps]
       simp [bodySearch, hbody, hfind])

/-- Witness for C3 at the spec's three-line body example. -/
theorem c3_witness :
    find_conventional_commit_in_body "fix: a\nfeat: b\nchore: c".data
      = some ⟨"feat".data, none, false, "b".data⟩ ∧
    (∃ k imp m,
      (bodyCandidates "fix: a\nfeat: b\nchore: c".data).get? k = some (imp, m) ∧
      find_conventional_commit_in_body "fix: a\nfeat: b\nchore: c".data = some m ∧
      imp = (get_commit_version_impact m.type m.breaking).value ∧
      (∀ p ∈ bodyCandidates "fix: a\nfeat: b\nchore: c".data, p.1 ≤ imp) ∧
      (∀ j q, j < k →
        (bodyCandidates "fix: a\nfeat: b\nchore: c".data).get? j = some q → q.1 < imp) ∧
      (∀ (hash subject : Str) (paths : List Str), parse_subject subject = none →
        (ConventionalCommit.from_git_commit
            ⟨hash, subject, some "fix: a\nfeat: b\nchore: c".data, paths⟩).subject
          = m.subject ∧
        (ConventionalCommit.from_git_commit
            ⟨hash, subject, some "fix: a\nfeat: b\nchore: c".data, paths⟩).is_conventional
          = true)) :=
  ⟨by decide,
    c3_body_recovery_picks_highest_impact_earliest "fix: a\nfeat: b\nchore: c".data
      (by decide)⟩

/-- Soundness of the decomposition list: every listed pair reassembles the
input around the separator. -/
theorem splitsOn_sound {ch : Char} : ∀ {cs a b : Str},
    (a, b) ∈ splitsOn ch cs → cs = a ++ ch :: b := by
  intro cs
  induction cs with
  | nil => intro a b h; simp [splitsOn] at h
  | cons c rest ih =>
    intro a b h
    simp only [splitsOn] at h
    have hmap : (a, b) ∈ (splitsOn ch rest).map (fun p => (c :: p.1, p.2)) →
        c :: rest = a ++ ch :: b := by
      intro hm
      obtain ⟨p, hp, hpe⟩ := List.mem_map.mp hm
      cases p with
      | mk p1 p2 =>
        cases hpe
        have := ih hp
        simp [this]
    by_cases hc : c = ch
    · rw [if_pos hc] at h
      rcases List.mem_append.mp h with h | h
      · exact hmap h
      · simp at h
        obtain ⟨ha, hb⟩ := h
        subst ha; subst hb; subst hc
        rfl
    · rw [if_neg hc] at h
      exact hmap h

/-- Completeness of the decomposition list: every split around the
separator is listed. -/
theorem splitsOn_complete {ch : Char} : ∀ (a b : Str),
    (a, b) ∈ splitsOn ch (a ++ ch :: b) := by
  intro a
  induction a with
  | nil =>
    intro b
    simp [splitsOn]
  | cons c a2 ih =>
    intro b
    simp only [List.cons_append, splitsOn]
    by_cases hc : c = ch
    · rw [if_pos hc]
      exact List.mem_append.mpr (Or.inl (List.mem_map.mpr ⟨(a2, b), ih b, rfl⟩))
    · rw [if_neg hc]
      exact List.mem_map.mpr ⟨(a2, b), ih b, rfl⟩

/-- A first-match search succeeds whenever some element succeeds. -/
theorem findSome?_isSome_of_mem {α β : Type} {f : α → Option β} {l : List α}
    {a : α} {b : β} (ha : a ∈ l) (hb : f a = some b) :
    (l.findSome? f).isSome = true := by
  induction ha with
  | head xs => simp [List.findSome?_cons, hb]
  | tail y hmem ih =>
    rename_i ys
    cases hy : f y with
    | some v => simp [List.findSome?_cons, hy]
    | none => simpa [List.findSome?_cons, hy] using ih

/-- The head of a dropWhile residue falsifies the predicate. -/
theorem dropWhile_head_false {p : Char → Bool} : ∀ (l : Str) (c : Char),
    (l.dropWhile p).head? = some c → p c = false := by
  intro l
  induction l with
  | nil => intro c h; simp at h
  | cons x xs ih =>
    intro c h
    rw [List.dropWhile_cons] at h
    by_cases hpx : p x = true
    · rw [if_pos hpx] at h
      exact ih c h
    · rw [if_neg hpx] at h
      simp at h
      subst h
      exact Bool.eq_false_iff.mpr hpx

/-- takeWhile and dropWhile on a run of satisfying characters followed by a
non-satisfying boundary. -/
theorem takeWhile_all_append {p : Char → Bool} : ∀ (d t : Str),
    (∀ c ∈ d, p c = true) → (∀ c, t.head? = some c → p c = false) →
    (d ++ t).takeWhile p = d ∧ (d ++ t).dropWhile p = t := by
  intro d
  induction d with
  | nil =>
    intro t _ ht
    cases t with
    | nil => exact ⟨rfl, rfl⟩
    | cons c ts =>
      have hc := ht c rfl
      constructor
      · simp [List.takeWhile_cons, hc]
      · simp [List.dropWhile_cons, hc]
  | cons c ds ih =>
    intro t hd ht
    have hc : p c = true := hd c (List.mem_cons_self c ds)
    have ihr := ih t (fun x hx => hd x (List.mem_cons_of_mem _ hx)) ht
    constructor
    · simp [List.takeWhile_cons, hc, ihr.1]
    · simp [List.dropWhile_cons, hc, ihr.2]

/-- Unpacking a successful digit-group parse. -/
theorem parseDigits_eq_some {cs : Str} {n : Nat} {r : Str}
    (h : parseDigits cs = some (n, r)) :
    ∃ d : Str, d ≠ [] ∧ (∀ c ∈ d, c.isDigit = true) ∧ cs = d ++ r ∧
      n = digitsToNat d ∧ (∀ c, r.head? = some c → c.isDigit = false) := by
  unfold parseDigits at h
  by_cases hd : cs.takeWhile Char.isDigit = []
  · rw [if_pos hd] at h
    cases h
  · rw [if_neg hd] at h
    have hn : n = digitsToNat (cs.takeWhile Char.isDigit) := by cases h; rfl
    have hr : r = cs.dropWhile Char.isDigit := by cases h; rfl
    refine ⟨cs.takeWhile Char.isDigit, hd, ?_, ?_, hn, ?_⟩
    · intro c hc
      exact List.mem_takeWhile_imp hc
    · rw [hr]
      exact (List.takeWhile_append_dropWhile Char.isDigit cs).symm
    · intro c hc
      rw [hr] at hc
      exact dropWhile_head_false cs c hc

/-- Computing the digit-group parse on a shaped input. -/
theorem parseDigits_of_shape {d t : Str} (hne : d ≠ [])
    (hd : ∀ c ∈ d, c.isDigit = true)
    (ht : ∀ c, t.head? = some c → c.isDigit = false) :
    parseDigits (d ++ t) = some (digitsToNat d, t) := by
  obtain ⟨h1, h2⟩ := takeWhile_all_append d t hd ht
  unfold parseDigits
  rw [h1, h2, if_neg hne]

/-- Unpacking a successful character expectation. -/
theorem expectChar_eq_some {c : Char} {cs r : Str}
    (h : expectChar c cs = some r) : cs = c :: r := by
  cases cs with
  | nil => cases h
  | cons x rest =>
    have h2 : (if x = c then some rest else (none : Option Str)) = some r := h
    by_cases hx : x = c
    · rw [if_pos hx] at h2
      cases h2
      rw [hx]
    · rw [if_neg hx] at h2
      cases h2

/-- Computing a character expectation on a shaped input. -/
theorem expectChar_cons (c : Char) (r : Str) : expectChar c (c :: r) = some r := by
  show (if c = c then some r else (none : Option Str)) = some r
  rw [if_pos rfl]

/-- The shape of tag version strings named by the spec: v then major
digits, an optional dotted minor group, and a nested optional dotted patch
group. -/
def SpecVersionForm (cs : Str) : Prop :=
  ∃ d1 : Str, d1 ≠ [] ∧ (∀ c ∈ d1, c.isDigit = true) ∧
    (cs = 'v' :: d1 ∨
      ∃ d2 : Str, d2 ≠ [] ∧ (∀ c ∈ d2, c.isDigit = true) ∧
        (cs = 'v' :: d1 ++ '.' :: d2 ∨
          ∃ d3 : Str, d3 ≠ [] ∧ (∀ c ∈ d3, c.isDigit = true) ∧
            cs = 'v' :: d1 ++ '.' :: d2 ++ '.' :: d3))

/-- The version parser accepts exactly the spec's version shapes. -/
theorem parseVersionPart_isSome_iff (cs : Str) :
    (parseVersionPart cs).isSome = true ↔ SpecVersionForm cs := by
  constructor
  · intro h
    rw [Option.isSome_iff_exists] at h
    obtain ⟨v, hv⟩ := h
    unfold parseVersionPart at hv
    cases hec : expectChar 'v' cs with
    | none => rw [hec] at hv; exact Option.noConfusion hv
    | some rest =>
      rw [hec] at hv
      dsimp only at hv
      have hcs := expectChar_eq_some hec
      cases hpd : parseDigits rest with
      | none => rw [hpd] at hv; exact Option.noConfusion hv
      | some p =>
        rw [hpd] at hv
        dsimp only at hv
        obtain ⟨maj, r1⟩ := p
        obtain ⟨d1, h1ne, h1dig, h1eq, _, h1hd⟩ := parseDigits_eq_some hpd
        by_cases hr1 : r1 = []
        · subst hr1
          refine ⟨d1, h1ne, h1dig, Or.inl ?_⟩
          rw [hcs, h1eq]
          simp
        · rw [if_neg hr1] at hv
          cases hec2 : expectChar '.' r1 with
          | none => rw [hec2] at hv; exact Option.noConfusion hv
          | some rest2 =>
            rw [hec2] at hv
            dsimp only at hv
            have hr1eq := expectChar_eq_some hec2
            cases hpd2 : parseDigits rest2 with
            | none => rw [hpd2] at hv; exact Option.noConfusion hv
            | some p2 =>
              rw [hpd2] at hv
              dsimp only at hv
              obtain ⟨mi, r2⟩ := p2
              obtain ⟨d2, h2ne, h2dig, h2eq, _, h2hd⟩ := parseDigits_eq_some hpd2
              by_cases hr2 : r2 = []
              · subst hr2
                refine ⟨d1, h1ne, h1dig, Or.inr ⟨d2, h2ne, h2dig, Or.inl ?_⟩⟩
                rw [hcs, h1eq, hr1eq, h2eq]
                simp
              · rw [if_neg hr2] at hv
                cases hec3 : expectChar '.' r2 with
                | none => rw [hec3] at hv; exact Option.noConfusion hv
                | some rest3 =>
                  rw [hec3] at hv
                  dsimp only at hv
                  have hr2eq := expectChar_eq_some hec3
                  cases hpd3 : parseDigits rest3 with
                  | none => rw [hpd3] at hv; exact Option.noConfusion hv
                  | some p3 =>
                    rw [hpd3] at hv
                    dsimp only at hv
                    obtain ⟨pa, r3⟩ := p3
                    obtain ⟨d3, h3ne, h3dig, h3eq, _, h3hd⟩ := parseDigits_eq_some hpd3
                    by_cases hr3 : r3 = []
                    · subst hr3
                      refine ⟨d1, h1ne, h1dig, Or.inr ⟨d2, h2ne, h2dig,
                        Or.inr ⟨d3, h3ne, h3dig, ?_⟩⟩⟩
                      rw [hcs, h1eq, hr1eq, h2eq, hr2eq, h3eq]
                      simp
                    · rw [if_neg hr3] at hv
                      exact Option.noConfusion hv
  · intro h
    obtain ⟨d1, h1ne, h1dig, hrest⟩ := h
    rcases hrest with h | ⟨d2, h2ne, h2dig, hrest2⟩
    · subst h
      unfold parseVersionPart
      rw [expectChar_cons]
      dsimp only
      have hpd : parseDigits d1 = some (digitsToNat d1, []) := by
        have hs := parseDigits_of_shape (t := []) h1ne h1dig (fun c hc => by simp at hc)
        rwa [List.append_nil] at hs
      rw [hpd]
      dsimp only
      simp
    · rcases hrest2 with h | ⟨d3, h3ne, h3dig, h⟩
      · have hcs : cs = 'v' :: (d1 ++ '.' :: d2) := by rw [h]; simp
        subst hcs
        unfold parseVersionPart
        rw [expectChar_cons]
        dsimp only
        have hpd : parseDigits (d1 ++ '.' :: d2) = some (digitsToNat d1, '.' :: d2) :=
          parseDigits_of_shape h1ne h1dig
            (fun c hc => by simp at hc; rw [← hc]; decide)
        rw [hpd]
        dsimp only
        rw [if_neg (by simp)]
        rw [expectChar_cons]
        dsimp only
        have hpd2 : parseDigits d2 = some (digitsToNat d2, []) := by
          have hs := parseDigits_of_shape (t := []) h2ne h2dig (fun c hc => by simp at hc)
          rwa [List.append_nil] at hs
        rw [hpd2]
        dsimp only
        simp
      · have hcs : cs = 'v' :: (d1 ++ '.' :: (d2 ++ '.' :: d3)) := by rw [h]; simp
        subst hcs
        unfold parseVersionPart
        rw [expectChar_cons]
        dsimp only
        have hpd : parseDigits (d1 ++ '.' :: (d2 ++ '.' :: d3))
            = some (digitsToNat d1, '.' :: (d2 ++ '.' :: d3)) :=
          parseDigits_of_shape h1ne h1dig
            (fun c hc => by simp at hc; rw [← hc]; decide)
        rw [hpd]
        dsimp only
        rw [if_neg (by simp)]
        rw [expectChar_cons]
        dsimp only
        have hpd2 : parseDigits (d2 ++ '.' :: d3) = some (digitsToNat d2, '.' :: d3) :=
          parseDigits_of_shape h2ne h2dig
            (fun c hc => by simp at hc; rw [← hc]; decide)
        rw [hpd2]
        dsimp only
        rw [if_neg (by simp)]
        rw [expectChar_cons]
        dsimp only
        have hpd3 : parseDigits d3 = some (digitsToNat d3, []) := by
          have hs := parseDigits_of_shape (t := []) h3ne h3dig (fun c hc => by simp at hc)
          rwa [List.append_nil] at hs
        rw [hpd3]
        dsimp only
        simp

/-- The shape of tag names named by the spec: the refs/tags/ prefix, an
optional scope segment ending in a slash, and a version part. -/
def SpecTagForm (s : Str) : Prop :=
  (∃ rest, s = "refs/tags/".data ++ rest ∧ SpecVersionForm rest) ∨
  (∃ sc rest, s = "refs/tags/".data ++ (sc ++ '/' :: rest) ∧ SpecVersionForm rest)

/-- TAG_REGEX accepts exactly the spec's tag shapes. -/
theorem tagRegexMatch_isSome_iff (s : Str) :
    (tagRegexMatch s).isSome = true ↔ SpecTagForm s := by
  constructor
  · intro h
    unfold tagRegexMatch at h
    by_cases hp : ("refs/tags/".data).isPrefixOf s = true
    · rw [if_pos hp] at h
      obtain ⟨t, ht⟩ := List.isPrefixOf_iff_prefix.mp hp
      have hd0 := List.drop_left "refs/tags/".data t
      have hlen : ("refs/tags/".data).length = 10 := rfl
      rw [hlen] at hd0
      have hd : s.drop 10 = t := by rw [← ht]; exact hd0
      rw [hd] at h
      unfold tagAfterRefsPre at h
      cases hfs : (splitsOn '/' t).findSome?
          (fun p => (parseVersionPart p.2).map (fun v => (some p.1, v))) with
      | some r =>
        obtain ⟨p, hpmem, hpeq⟩ := List.exists_of_findSome?_eq_some hfs
        obtain ⟨a, b⟩ := p
        have hv : (parseVersionPart b).isSome = true := by
          cases hpp : parseVersionPart b with
          | none => rw [hpp] at hpeq; simp at hpeq
          | some v => simp
        have hsplit := splitsOn_sound hpmem
        right
        refine ⟨a, b, ?_, (parseVersionPart_isSome_iff b).mp hv⟩
        rw [← ht, hsplit]
      | none =>
        rw [hfs] at h
        dsimp only at h
        have hv : (parseVersionPart t).isSome = true := by
          cases hpp : parseVersionPart t with
          | none => rw [hpp] at h; simp at h
          | some v => simp
        exact Or.inl ⟨t, ht.symm, (parseVersionPart_isSome_iff t).mp hv⟩
    · rw [if_neg hp] at h
      simp at h
  · intro h
    unfold tagRegexMatch
    rcases h with ⟨rest, hs, hform⟩ | ⟨sc, rest, hs, hform⟩
    · subst hs
      rw [if_pos ( List.isPrefixOf_iff_prefix.mpr ⟨rest, rfl⟩)]
      have hd0 := List.drop_left "refs/tags/".data rest
      have hlen : ("refs/tags/".data).length = 10 := rfl
      rw [hlen] at hd0
      rw [hd0]
      unfold tagAfterRefsPre
      cases hfs : (splitsOn '/' rest).findSome?
          (fun p => (parseVersionPart p.2).map (fun v => (some p.1, v))) with
      | some r => rfl
      | none =>
        dsimp only
        have hv := (parseVersionPart_isSome_iff rest).mpr hform
        obtain ⟨v, hvv⟩ := Option.isSome_iff_exists.mp hv
        rw [hvv]
        rfl
    · subst hs
      rw [if_pos ( List.isPrefixOf_iff_prefix.mpr ⟨sc ++ '/' :: rest, rfl⟩)]
      have hd0 := List.drop_left "refs/tags/".data (sc ++ '/' :: rest)
      have hlen : ("refs/tags/".data).length = 10 := rfl
      rw [hlen] at hd0
      rw [hd0]
      unfold tagAfterRefsPre
      have hv := (parseVersionPart_isSome_iff rest).mpr hform
      obtain ⟨v, hvv⟩ := Option.isSome_iff_exists.mp hv
      have hmem := @splitsOn_complete '/' sc rest
      have hsome := findSome?_isSome_of_mem (f := fun p =>
          (parseVersionPart p.2).map (fun v => (some p.1, v))) hmem
        (by dsimp only; rw [hvv]; rfl)
      cases hfs : (splitsOn '/' (sc ++ '/' :: rest)).findSome?
          (fun p => (parseVersionPart p.2).map (fun v => (some p.1, v))) with
      | some r => rfl
      | none => rw [hfs] at hsome; simp at hsome

/-- Version comparison is reflexive. -/
theorem verLe_refl (a : Version) : verLe a a = true := by
  simp [verLe]

/-- Version comparison is transitive. -/
theorem verLe_trans {a b c : Version} (h1 : verLe a b = true)
    (h2 : verLe b c = true) : verLe a c = true := by
  simp [verLe] at h1 h2 ⊢
  omega

/-- Version comparison is total. -/
theorem verLe_total_of_not {a b : Version} (h : verLe a b = false) :
    verLe b a = true := by
  simp [verLe] at h ⊢
  omega

/-- Version-sortedness: adjacent pairs are in verLe order. -/
def sortedVer : List (Str × Version) → Prop :=
  List.Chain' (fun a b => verLe a.2 b.2 = true)

/-- Elements of an insertion come from the inserted element or the list. -/
theorem insertAscVer_mem {x y : Str × Version} : ∀ {s},
    y ∈ insertAscVer x s → y = x ∨ y ∈ s := by
  intro s
  induction s with
  | nil =>
    intro h
    simp [insertAscVer] at h
    exact Or.inl h
  | cons z zs ih =>
    intro h
    simp only [insertAscVer] at h
    by_cases hc : verLe x.2 z.2 = true
    · rw [if_pos hc] at h
      exact List.mem_cons.mp h
    · rw [if_neg hc] at h
      rcases List.mem_cons.mp h with h | h
      · exact Or.inr (by rw [h]; exact List.mem_cons_self _ _)
      · rcases ih h with h | h
        · exact Or.inl h
        · exact Or.inr (List.mem_cons_of_mem _ h)

/-- Elements go into an insertion. -/
theorem insertAscVer_mem_of {x y : Str × Version} : ∀ {s},
    (y = x ∨ y ∈ s) → y ∈ insertAscVer x s := by
  intro s
  induction s with
  | nil =>
    intro h
    rcases h with h | h
    · rw [h]; exact List.mem_cons_self _ _
    · cases h
  | cons z zs ih =>
    intro h
    simp only [insertAscVer]
    by_cases hc : verLe x.2 z.2 = true
    · rw [if_pos hc]
      rcases h with h | h
      · rw [h]; exact List.mem_cons_self _ _
      · exact List.mem_cons_of_mem _ h
    · rw [if_neg hc]
      rcases h with h | h
      · exact List.mem_cons_of_mem _ (ih (Or.inl h))
      · rcases List.mem_cons.mp h with h | h
        · rw [h]; exact List.mem_cons_self _ _
        · exact List.mem_cons_of_mem _ (ih (Or.inr h))

/-- Sorting preserves membership (towards the original list). -/
theorem sortByVersion_mem {y : Str × Version} : ∀ {l},
    y ∈ sortByVersion l → y ∈ l := by
  intro l
  induction l with
  | nil => intro h; simp [sortByVersion] at h
  | cons a l2 ih =>
    intro h
    have hstep : sortByVersion (a :: l2) = insertAscVer a (sortByVersion l2) := rfl
    rw [hstep] at h
    rcases insertAscVer_mem h with h | h
    · rw [h]; exact List.mem_cons_self _ _
    · exact List.mem_cons_of_mem _ (ih h)

/-- Sorting preserves membership (from the original list). -/
theorem sortByVersion_mem_of {y : Str × Version} : ∀ {l},
    y ∈ l → y ∈ sortByVersion l := by
  intro l
  induction l with
  | nil => intro h; cases h
  | cons a l2 ih =>
    intro h
    have hstep : sortByVersion (a :: l2) = insertAscVer a (sortByVersion l2) := rfl
    rw [hstep]
    rcases List.mem_cons.mp h with h | h
    · exact insertAscVer_mem_of (Or.inl h)
    · exact insertAscVer_mem_of (Or.inr (ih h))

/-- The head of an insertion is the inserted element or the old head. -/
theorem insertAscVer_head {x : Str × Version} : ∀ {s : List (Str × Version)},
    (insertAscVer x s).head? = some x ∨ (insertAscVer x s).head? = s.head? := by
  intro s
  cases s with
  | nil => exact Or.inl rfl
  | cons z zs =>
    by_cases hc : verLe x.2 z.2 = true
    · left; simp [insertAscVer, hc]
    · right; simp [insertAscVer, hc]

/-- Insertion preserves sortedness. -/
theorem insertAscVer_sorted {x : Str × Version} : ∀ {s},
    sortedVer s → sortedVer (insertAscVer x s) := by
  intro s
  induction s with
  | nil => intro _; simp [insertAscVer, sortedVer]
  | cons z zs ih =>
    intro hs
    obtain ⟨hzh, hz⟩ := List.chain'_cons'.mp hs
    simp only [insertAscVer]
    by_cases hc : verLe x.2 z.2 = true
    · rw [if_pos hc]
      refine List.chain'_cons'.mpr ⟨?_, hs⟩
      intro y hy
      simp at hy
      rw [← hy]
      exact hc
    · rw [if_neg hc]
      refine List.chain'_cons'.mpr ⟨?_, ih hz⟩
      intro y hy
      rcases insertAscVer_head (x := x) (s := zs) with hh | hh
      · rw [hh] at hy
        simp at hy
        rw [← hy]
        exact verLe_total_of_not (Bool.eq_false_iff.mpr hc)
      · rw [hh] at hy
        exact hzh y hy

/-- The whole sort is sorted. -/
theorem sortByVersion_sorted : ∀ (l : List (Str × Version)),
    sortedVer (sortByVersion l) := by
  intro l
  induction l with
  | nil => simp [sortByVersion, sortedVer]
  | cons a l2 ih => exact insertAscVer_sorted ih

/-- The last element of a version-sorted list bounds every element. -/
theorem sorted_getLast_ge : ∀ {l : List (Str × Version)} {z}, sortedVer l →
    l.getLast? = some z → ∀ y ∈ l, verLe y.2 z.2 = true := by
  intro l
  induction l with
  | nil => intro z _ h; cases h
  | cons a l2 ih =>
    intro z hs hlast y hy
    cases l2 with
    | nil =>
      simp at hlast
      simp at hy
      rw [hy, ← hlast]
      exact verLe_refl _
    | cons b l3 =>
      rw [List.getLast?_cons_cons] at hlast
      obtain ⟨hab, hs2⟩ := List.chain'_cons.mp hs
      rcases List.mem_cons.mp hy with hy | hy
      · rw [hy]
        have hb := ih hs2 hlast b (List.mem_cons_self _ _)
        exact verLe_trans hab hb
      · exact ih hs2 hlast y hy

/-- A present last element is a member. -/
theorem getLast?_mem_self {α : Type} : ∀ {l : List α} {z : α},
    l.getLast? = some z → z ∈ l := by
  intro l
  induction l with
  | nil => intro z h; cases h
  | cons a l2 ih =>
    intro z h
    cases l2 with
    | nil =>
      simp at h
      rw [← h]
      exact List.mem_cons_self _ _
    | cons b l3 =>
      rw [List.getLast?_cons_cons] at h
      exact List.mem_cons_of_mem _ (ih h)

/-- C4.  TAG_REGEX accepts exactly the names [scope/]v(major)(.minor(.patch)),
a missing minor or patch defaults to 0 (v1 parses as v1.0.0 does), and the
resolver returns a matching tag carrying the maximum version of all matching
tags under numeric triple ordering, never lexical string ordering (v1.10.0
is selected over v1.9.0). -/
theorem c4_resolver_max_numeric_version :
    (∀ s : Str, ¬ '\n' ∈ s → ((tagRegexMatch s).isSome = true ↔ SpecTagForm s)) ∧
    tagRegexMatch "refs/tags/v1".data = some (none, 1, 0, 0) ∧
    tagRegexMatch "refs/tags/v1".data = tagRegexMatch "refs/tags/v1.0.0".data ∧
    (∀ (refs : List Str) (scope : Option Str) (t : Str) (v : Version),
      retrieve_last_version refs scope = some (t, v) →
      (t, v) ∈ tag_version_list refs scope ∧
      ∀ p ∈ tag_version_list refs scope, verLe p.2 v = true) ∧
    retrieve_last_version ["refs/tags/v1.9.0".data, "refs/tags/v1.10.0".data] none
      = some ("refs/tags/v1.10.0".data, ⟨1, 10, 0⟩) := by
  refine ⟨fun s _ => tagRegexMatch_isSome_iff s, by decide, by decide, ?_, by decide⟩
  intro refs scope t v h
  unfold retrieve_last_version at h
  have hmem : (t, v) ∈ sortByVersion (tag_version_list refs scope) :=
    getLast?_mem_self h
  refine ⟨sortByVersion_mem hmem, ?_⟩
  intro p hp
  exact sorted_getLast_ge (sortByVersion_sorted _) h p (sortByVersion_mem_of hp)

/-- Witness for C4 at concrete tag names and a concrete ref set. -/
theorem c4_witness :
    SpecTagForm "refs/tags/core/v2.3".data ∧
    (("refs/tags/v2".data, (⟨2, 0, 0⟩ : Version)) ∈
        tag_version_list ["refs/tags/v1".data, "refs/tags/v2".data] none ∧
      ∀ p ∈ tag_version_list ["refs/tags/v1".data, "refs/tags/v2".data] none,
        verLe p.2 ⟨2, 0, 0⟩ = true) := by
  constructor
  · exact (c4_resolver_max_numeric_version.1 "refs/tags/core/v2.3".data
      (by decide)).mp (by decide)
  · exact c4_resolver_max_numeric_version.2.2.2.1
      ["refs/tags/v1".data, "refs/tags/v2".data] none
      "refs/tags/v2".data ⟨2, 0, 0⟩ (by decide)

/-- A reader for repositories of empty commits: every tree diff is empty
and lookups return a dummy object (never inspected beyond its tree). -/
def rdEmpty : Reader :=
  ⟨fun _ => ⟨[], [], [], 0, 0⟩, fun _ _ => []⟩

/-- A two-commit linear walk used as a concrete repository. -/
def walkC5 : List RawCommit :=
  [⟨"a1".data, "First".data, [], 0, 0⟩,
   ⟨"b2".data, "Second".data, ["a1".data], 0, 1⟩]

/-- Counterexample to C5 as stated: with a from-sha absent from the walk the
result is empty, not the full history that an unset from-sha yields. -/
theorem c5_counterexample_unreachable_from_gives_empty :
    list_commits rdEmpty walkC5 (some "zz".data) none = [] ∧
    (list_commits rdEmpty walkC5 none none).length = 2 := by decide

/-- C5 amended: when the from-sha is set but never appears in the walk, the
add flag stays down for the entire traversal and list_commits returns the
empty sequence (it does not fall back to the full history). -/
theorem c5_amended_unreachable_from_yields_empty (rd : Reader)
    (walk : List RawCommit) (fromSha : Str) (toSha : Option Str)
    (h : ∀ c ∈ walk, c.id ≠ fromSha) :
    list_commits rd walk (some fromSha) toSha = [] := by
  unfold list_commits
  have hgen : ∀ w, (∀ c ∈ w, c.id ≠ fromSha) →
      list_commits_walk rd (some fromSha) toSha w false = [] := by
    intro w
    induction w with
    | nil => intro _; rfl
    | cons c rest ih =>
      intro hw
      have hc : c.id ≠ fromSha := hw c (List.mem_cons_self _ _)
      have hstep : list_commits_walk rd (some fromSha) toSha (c :: rest) false =
          (if toSha = some c.id
           then (if false then [commitOfRaw rd c] else [])
           else (if false then [commitOfRaw rd c] else []) ++
             list_commits_walk rd (some fromSha) toSha rest
               (if some fromSha = some c.id then true else false)) := rfl
      rw [hstep]
      have h1 : (if some fromSha = some c.id then true else false) = false := by
        have hne : ¬ (some fromSha = some c.id) := by
          intro he
          exact hc (Option.some.inj he).symm
        rw [if_neg hne]
      rw [h1]
      by_cases hq : toSha = some c.id
      · rw [if_pos hq]
        simp
      · rw [if_neg hq]
        simp [ih (fun d hd => hw d (List.mem_cons_of_mem _ hd))]
  exact hgen walk h

/-- Witness for the amended C5 at the concrete walk. -/
theorem c5_witness :
    list_commits rdEmpty walkC5 (some "zz".data) none = [] :=
  c5_amended_unreachable_from_yields_empty rdEmpty walkC5 "zz".data none (by decide)

/-- A non-conventional commit used as a concrete input. -/
def commitC6 : Commit := ⟨"deadbeef".data, "Update dependencies".data, none, []⟩

/-- C6 at its failing input: in strict mode the commit-collection loop still
includes the unparseable commit as an other-typed, non-conventional record
(from_git_commit never raises, the except branch is dead), identical to
non-strict mode; the commit is not removed from the set. -/
theorem c6_strict_mode_still_includes_nonconventional :
    runCollect true none [] [commitC6]
      = [ConventionalCommit.from_git_commit commitC6] ∧
    (ConventionalCommit.from_git_commit commitC6).is_conventional = false ∧
    (ConventionalCommit.from_git_commit commitC6).commit_type = CommitType.OTHER ∧
    runCollect true none [] [commitC6] = runCollect false none [] [commitC6] := by
  decide

/-- A successful parse carries a non-empty subject group. -/
theorem parse_subject_ne_nil {s : Str} {m : SubjectMatch}
    (h : parse_subject s = some m) : m.subject ≠ [] := by
  unfold parse_subject at h
  cases hr : subjectRegexMatch s with
  | none => rw [hr] at h; cases h
  | some m2 =>
    rw [hr] at h
    dsimp only at h
    by_cases hs : m2.subject = []
    · rw [if_pos hs] at h; cases h
    · rw [if_neg hs] at h
      cases h
      exact hs

/-- A body-line candidate records exactly its parsed match. -/
theorem lineCandidate_parse {line : Str} {p : Nat × SubjectMatch}
    (hp : lineCandidate line = some p) :
    parse_subject (stripBullet (pyStrip line)) = some p.2 := by
  by_cases hl : pyStrip line = []
  · simp [lineCandidate, hl] at hp
  · simp only [lineCandidate, hl, if_false] at hp
    cases hps : parse_subject (stripBullet (pyStrip line)) with
    | none => rw [hps] at hp; simp at hp
    | some m2 =>
      rw [hps] at hp
      simp at hp
      rw [← hp]

/-- A match recovered from the body has a non-empty subject group. -/
theorem findBody_subject_ne_nil {b : Str} {m : SubjectMatch}
    (h : find_conventional_commit_in_body b = some m) : m.subject ≠ [] := by
  unfold find_conventional_commit_in_body at h
  by_cases hb : b = []
  · rw [if_pos hb] at h; cases h
  · rw [if_neg hb] at h
    cases hsort : sortDescBy (fun p => p.1) (bodyCandidates b) with
    | nil => rw [hsort] at h; cases h
    | cons x xs =>
      rw [hsort] at h
      dsimp only at h
      cases h
      have hhead : (sortDescBy (fun p => p.1) (bodyCandidates b)).head? = some x := by
        rw [hsort]
        rfl
      obtain ⟨k, hget, _, _⟩ := sortDescBy_head_first_max (fun p => p.1) _ x hhead
      have hmem := List.get?_mem hget
      obtain ⟨line, _, hcand⟩ := List.mem_filterMap.mp hmem
      exact parse_subject_ne_nil (lineCandidate_parse hcand)

/-- A match produced by the body search wrapper has a non-empty subject. -/
theorem bodySearch_subject_ne_nil {body : Option Str} {m : SubjectMatch}
    (h : bodySearch body = some m) : m.subject ≠ [] := by
  unfold bodySearch at h
  cases body with
  | none => cases h
  | some b =>
    dsimp only at h
    by_cases hb : b = []
    · rw [if_pos hb] at h; cases h
    · rw [if_neg hb] at h
      exact findBody_subject_ne_nil h

/-- The commit built from a message with no blank-line paragraph break: the
subject is empty and the whole message becomes the body (git.py lines
53-65, 121-125). -/
def commitC7 : Commit :=
  ⟨"cafebabe".data,
   (parse_message "First line\nSecond line".data).1,
   (if (parse_message "First line\nSecond line".data).2 = [] then none
    else some (parse_message "First line\nSecond line".data).2),
   []⟩

/-- Counterexample to C7 as stated: a commit whose raw message has no
blank-line-separated paragraph break gets an empty subject, and when no
grammar match exists the constructed record's description (the subject
field) is the empty string. -/
theorem c7_counterexample_empty_description :
    commitC7.subject = [] ∧
    (ConventionalCommit.from_git_commit commitC7).subject = [] ∧
    (ConventionalCommit.from_git_commit commitC7).is_conventional = false := by
  decide

/-- C7 amended: a record parsed as conventional always has a non-empty
description, and a fallback record's description is the raw subject
verbatim, which is empty exactly when the subject was empty. -/
theorem c7_amended_description_nonempty_unless_fallback_empty_subject (c : Commit) :
    ((ConventionalCommit.from_git_commit c).is_conventional = true →
      (ConventionalCommit.from_git_commit c).subject ≠ []) ∧
    ((ConventionalCommit.from_git_commit c).is_conventional = false →
      (ConventionalCommit.from_git_commit c).subject = c.subject) := by
  unfold ConventionalCommit.from_git_commit
  cases hps : parse_subject c.subject with
  | some m =>
    dsimp only
    constructor
    · intro _
      exact parse_subject_ne_nil hps
    · intro hfalse
      cases hfalse
  | none =>
    cases hbs : bodySearch c.body with
    | some m =>
      dsimp only
      constructor
      · intro _
        exact bodySearch_subject_ne_nil hbs
      · intro hfalse
        cases hfalse
    | none =>
      dsimp only
      exact ⟨fun htrue => absurd htrue (by simp), fun _ => rfl⟩

/-- Witness for the amended C7 at a conventional commit and at the fallback
commit with the empty subject. -/
theorem c7_witness :
    (ConventionalCommit.from_git_commit
        ⟨"f00".data, "feat: x".data, none, []⟩).subject ≠ [] ∧
    (ConventionalCommit.from_git_commit commitC7).subject = commitC7.subject :=
  ⟨(c7_amended_description_nonempty_unless_fallback_empty_subject
      ⟨"f00".data, "feat: x".data, none, []⟩).1 (by decide),
   (c7_amended_description_nonempty_unless_fallback_empty_subject commitC7).2
      (by decide)⟩

/-- C9 amended.  The filter keeps a commit exactly when some changed path
has the directory as a path-segment prefix (segment comparison, so lib_ab
does not match lib_a), and a commit with no parents yields the empty
changed-path set, so the filter never keeps it. -/
theorem c9_directory_filter_segments :
    (∀ (c : Commit) (dir : Str), c.affects_dir dir = true ↔
      ∃ p ∈ c.paths, ∃ t, splitPath dir ++ t = splitPath p) ∧
    (Commit.affects_dir ⟨[], [], none, ["lib_ab/f.py".data]⟩ "lib_a".data = false ∧
     Commit.affects_dir ⟨[], [], none, ["lib_a/f.py".data]⟩ "lib_a".data = true ∧
     Commit.affects_dir ⟨[], [], none, ["lib_a".data]⟩ "lib_a".data = true) ∧
    (∀ (rd : Reader) (c : RawCommit), c.parents = [] →
      get_commit_paths rd c = []) := by
  refine ⟨?_, by decide, ?_⟩
  · intro c dir
    unfold Commit.affects_dir
    rw [List.any_eq_true]
    constructor
    · rintro ⟨p, hp, hpre⟩
      exact ⟨p, hp, List.isPrefixOf_iff_prefix.mp hpre⟩
    · rintro ⟨p, hp, ht⟩
      exact ⟨p, hp, List.isPrefixOf_iff_prefix.mpr ht⟩
  · intro rd c hpar
    unfold get_commit_paths
    rw [hpar]
    rfl

/-- A reader whose diff of the empty tree (id 0) against tree 5 introduces
one file under lib_a; all other diffs are empty. -/
def rdC9 : Reader :=
  ⟨fun _ => ⟨[], [], [], 0, 0⟩,
   fun old new =>
    if old = 0 && new = 5 then [(none, some "lib_a/file.py".data)] else []⟩

/-- A root commit whose tree contains a file under lib_a. -/
def rootC9 : RawCommit := ⟨"r00t".data, "Initial commit".data, [], 5, 0⟩

/-- Modelled from the spec: 'a commit with no parents (root) is compared
against its own tree' — the changed paths of a root commit are the diff of
the empty tree (id 0 in this reader) against the commit's own tree,
collected the same way get_commit_paths collects a parent diff. -/
def specOwnTreePaths (rd : Reader) (c : RawCommit) : List Str :=
  (rd.tree_changes 0 c.tree).foldl
    (fun acc pr =>
      let acc2 := match pr.1 with | some p => acc ++ [p] | none => acc
      match pr.2 with | some p => acc2 ++ [p] | none => acc2)
    []

/-- Counterexample to the root-commit clause of C9: the code hands a root
commit an empty changed-path set, so the filter drops it, while comparison
against its own tree (the spec's rule) would keep it. -/
theorem c9_counterexample_root_commit_empty_paths :
    rootC9.parents = [] ∧
    get_commit_paths rdC9 rootC9 = [] ∧
    Commit.affects_dir
      ⟨rootC9.id, "Initial commit".data, none, get_commit_paths rdC9 rootC9⟩
      "lib_a".data = false ∧
    specOwnTreePaths rdC9 rootC9 = ["lib_a/file.py".data] ∧
    Commit.affects_dir
      ⟨rootC9.id, "Initial commit".data, none, specOwnTreePaths rdC9 rootC9⟩
      "lib_a".data = true := by
  decide

/-- Witness for the amended C9 at a concrete nested path and the root
commit. -/
theorem c9_witness :
    Commit.affects_dir ⟨"h".data, [], none, ["core/sub/x.py".data]⟩
      "core".data = true ∧
    get_commit_paths rdC9 rootC9 = [] := by
  constructor
  · exact (c9_directory_filter_segments.1
      ⟨"h".data, [], none, ["core/sub/x.py".data]⟩ "core".data).mpr
      ⟨"core/sub/x.py".data, by decide, ⟨["sub".data, "x.py".data], by decide⟩⟩
  · exact c9_directory_filter_segments.2.2 rdC9 rootC9 rfl

/-- Modelled from the spec: the output order of repo.get_walker(reverse=True)
(dulwich, a collaborator outside this repository's sources).  The spec's
walker sketch requires the visited set to be 'emitted in an order where
each commit appears after all of its parents'; this concrete walk is the
test suite's merge scenario (tests/test_git.py) — a mainline with a tag, a
side branch whose commits are chronologically older than the tag, and a
later merge — emitted in reversed commit-date order, which satisfies the
parent-before-child requirement (both properties are proved below). -/
def walkC1 : List RawCommit :=
  [⟨"aa".data, "Initial commit".data, [], 0, 0⟩,
   ⟨"f1".data, "fix(ui): overflow box".data, ["aa".data], 0, 1⟩,
   ⟨"f2".data, "wip: migrations versions".data, ["f1".data], 0, 2⟩,
   ⟨"f3".data, "chore: refactor columns handling".data, ["f2".data], 0, 3⟩,
   ⟨"f4".data, "chore: refactor updates".data, ["f3".data], 0, 4⟩,
   ⟨"f5".data, "feat: record transform".data, ["f4".data], 0, 5⟩,
   ⟨"pp".data, "Prepare release".data, ["aa".data], 0, 6⟩,
   ⟨"rr".data, "Post-release fix".data, ["pp".data], 0, 7⟩,
   ⟨"mm".data, "Merge feature branch".data, ["rr".data, "f5".data], 0, 8⟩]

/-- Parent ids of a commit of the scenario graph. -/
def parentsOfC1 (i : Str) : List Str :=
  match walkC1.find? (fun c => c.id = i) with
  | some c => c.parents
  | none => []

/-- Fuelled reachable-set computation over parent links. -/
def reachAux (g : Str → List Str) : Nat → List Str → List Str
  | 0, acc => acc
  | Nat.succ n, acc =>
    let nxt := ((acc.map g).join).filter (fun i => !(acc.contains i))
    if nxt = [] then acc else reachAux g n (acc ++ nxt)

/-- Ids reachable from a root along parent links (self included). -/
def reachable (g : Str → List Str) (root : Str) : List Str :=
  reachAux g 10 [root]

/-- Adjacent commit times never decrease: the walk is a reversed
date-order emission. -/
def timeSortedAsc : List RawCommit → Bool
  | [] => true
  | [_] => true
  | a :: b :: rest => (a.time ≤ b.time) && timeSortedAsc (b :: rest)

/-- Every commit's parents occur strictly earlier in the walk. -/
def parentsBeforeAux : List Str → List RawCommit → Bool
  | _, [] => true
  | seen, c :: rest =>
    (c.parents.all (fun p => seen.contains p)) && parentsBeforeAux (c.id :: seen) rest

/-- The walk lists parents before children. -/
def parentsBefore (walk : List RawCommit) : Bool :=
  parentsBeforeAux [] walk

/-- C1 at its failing input: on the merge scenario of the repository's own
test suite, emitted in a parent-before-child, reversed date order, the
range walk from the tagged commit to the head returns only the post-tag
mainline commits; the side-branch commit f1 is reachable from the head and
not from the tag — the claim requires it in the output — yet it is absent,
as is every other feature-branch commit. -/
theorem c1_range_walk_drops_premerge_side_branch :
    parentsBefore walkC1 = true ∧
    timeSortedAsc walkC1 = true ∧
    ("f1".data ∈ reachable parentsOfC1 "mm".data) ∧
    ("f1".data ∉ reachable parentsOfC1 "pp".data) ∧
    ((list_commits rdEmpty walkC1 (some "pp".data) none).map
        (fun c => c.subject)
      = ["Post-release fix".data, "Merge feature branch".data]) ∧
    ("fix(ui): overflow box".data ∉
      (list_commits rdEmpty walkC1 (some "pp".data) none).map
        (fun c => c.subject)) ∧
    ("Prepare release".data ∉
      (list_commits rdEmpty walkC1 (some "pp".data) none).map
        (fun c => c.subject)) := by
  decide
